import Mathlib

/-!
# Verification of the MapReduce worker and job pipeline

A shallow embedding, in Lean 4, of the `mapreduce` package's worker
(`DoMap`, `DoReduce`, `RegisterWithServer`), of the intermediate-store
naming convention (`reduceInputName`), and — where the master's code is
absent from the sources at hand — of the scheduler barrier and the
`merge` step as the specification describes them.

Machine integers are modelled as `Nat` with explicit reduction
modulo `2^32` where the Go code converts to `uint32`.  Go code that can
panic (modulo by zero, slice index out of range) is embedded in
`Except String`, the error carrying the panic message.
-/

namespace MapReduce

/-- The atomic unit exchanged between map output and reduce input
(`KeyValue` in the `mapreduce` package): a pair of strings. -/
structure KeyValue where
  key : String
  value : String
deriving DecidableEq, Repr

/-- Go's `uint32(n)` conversion: truncation modulo `2^32`. -/
def uint32 (n : Nat) : Nat := n % 4294967296

/-- Modelled from the spec: the partitioning hash, named `ihash` in the
worker's `DoMap`; its definition lives in the `mapreduce` package's
common file, which is absent from the sources at hand.  The spec asks
only for a fixed, deterministic, reasonably-uniform 32-bit string hash;
we model it as FNV-1a over the key's characters, reduced mod `2^32` at
every step. -/
def ihash (s : String) : Nat :=
  s.data.foldl (fun h c => uint32 ((h ^^^ c.toNat) * 16777619)) 2166136261

/-- The reducer index the worker's `DoMap` computes for a key at line
`reducerNum := (ihash(kv.Key)) % uint32(numReducers)`: the hash reduced
modulo the `uint32`-truncated reducer count.  A pure function of the
key and `numReducers` only. -/
def partitionIndex (key : String) (numReducers : Nat) : Nat :=
  ihash key % uint32 numReducers

/-- One iteration of `DoMap`'s partitioning loop
(`partitions[reducerNum] = append(partitions[reducerNum], kv)`).
Faithful to Go semantics: `% uint32(numReducers)` panics when the
truncated divisor is zero, and the slice index panics when out of
range; both are embedded as `Except.error` with the Go panic text. -/
def partitionStep (numReducers : Nat) (parts : List (List KeyValue)) (kv : KeyValue) :
    Except String (List (List KeyValue)) :=
  if uint32 numReducers = 0 then
    Except.error "runtime error: integer divide by zero"
  else
    if h : partitionIndex kv.key numReducers < parts.length then
      Except.ok (parts.set (partitionIndex kv.key numReducers)
        (parts.get ⟨partitionIndex kv.key numReducers, h⟩ ++ [kv]))
    else
      Except.error "runtime error: index out of range"

/-- The partitioning phase of `DoMap` (lines 66-72 of the worker):
start from `partitions := make([][]KeyValue, numReducers)` — a list of
`numReducers` empty partitions — and route every emitted `KeyValue` in
emission order. -/
def doMapPartitions (kvs : List KeyValue) (numReducers : Nat) :
    Except String (List (List KeyValue)) :=
  kvs.foldlM (partitionStep numReducers) (List.replicate numReducers [])

/-- The file-writing phase of `DoMap` (lines 74-86): for each reducer
index the partition file is opened with `O_CREATE|O_APPEND` and the
partition's pairs are appended in order.  `prev` is the previous
content of each partition file, indexed by reducer number. -/
def doMapWriteFiles (prev : Nat → List KeyValue) (parts : List (List KeyValue)) :
    Nat → List KeyValue :=
  fun i => if h : i < parts.length then prev i ++ parts.get ⟨i, h⟩ else prev i

theorem ihash_lt (s : String) : ihash s < 4294967296 := by
  unfold ihash
  induction s.data using List.reverseRecOn with
  | nil => decide
  | append_singleton xs c ih =>
      rw [List.foldl_append]
      exact Nat.mod_lt _ (by decide)

theorem uint32_le (n : Nat) : uint32 n ≤ n := Nat.mod_le n _

/-- When the truncated divisor is nonzero, the partition index is in
range for a partition table of length `numReducers`. -/
theorem partitionIndex_lt (key : String) (n : Nat) (h : uint32 n ≠ 0) :
    partitionIndex key n < n :=
  Nat.lt_of_lt_of_le (Nat.mod_lt _ (Nat.pos_of_ne_zero h)) (uint32_le n)

/-- Invariant of the partitioning fold: starting from a table of length
`n` whose entry `j` holds exactly the already-processed pairs routed to
`j` (in order), folding the remaining pairs succeeds and extends each
entry with the remaining pairs routed to it, in order. -/
theorem foldlM_partitionStep (n : Nat) (hn : uint32 n ≠ 0) :
    ∀ (kvs : List KeyValue) (acc : List KeyValue) (parts : List (List KeyValue)),
      parts.length = n →
      (∀ j (hj : j < parts.length),
        parts.get ⟨j, hj⟩ = acc.filter (fun kv => partitionIndex kv.key n == j)) →
      ∃ parts', kvs.foldlM (partitionStep n) parts = Except.ok parts' ∧
        parts'.length = n ∧
        ∀ j (hj : j < parts'.length),
          parts'.get ⟨j, hj⟩ =
            (acc ++ kvs).filter (fun kv => partitionIndex kv.key n == j) := by
  intro kvs
  induction kvs with
  | nil =>
      intro acc parts hlen hinv
      exact ⟨parts, rfl, hlen, by simpa using hinv⟩
  | cons kv rest ih =>
      intro acc parts hlen hinv
      have hr : partitionIndex kv.key n < parts.length := hlen ▸ partitionIndex_lt kv.key n hn
      have hstep : partitionStep n parts kv =
          Except.ok (parts.set (partitionIndex kv.key n)
            (parts.get ⟨partitionIndex kv.key n, hr⟩ ++ [kv])) := by
        simp [partitionStep, hn, hr]
      set newParts := parts.set (partitionIndex kv.key n)
        (parts.get ⟨partitionIndex kv.key n, hr⟩ ++ [kv]) with hnew
      have hlen' : newParts.length = n := by simp [hnew, hlen]
      have hinv' : ∀ j (hj : j < newParts.length),
          newParts.get ⟨j, hj⟩ =
            (acc ++ [kv]).filter (fun kv' => partitionIndex kv'.key n == j) := by
        intro j hj
        have hjp : j < parts.length := by
          simpa [hnew] using hj
        by_cases hcase : j = partitionIndex kv.key n
        · have hval : newParts.get ⟨j, hj⟩ =
              parts.get ⟨partitionIndex kv.key n, hr⟩ ++ [kv] := by
            simp [hnew, List.get_eq_getElem, hcase, List.getElem_set_self]
          rw [hval, hinv _ hr]
          simp [List.filter_append, hcase]
        · have hval : newParts.get ⟨j, hj⟩ = parts.get ⟨j, hjp⟩ := by
            simp [hnew, List.get_eq_getElem,
              List.getElem_set_ne (fun h => hcase h.symm)]
          rw [hval, hinv j hjp]
          have hne : partitionIndex kv.key n ≠ j := fun h => hcase h.symm
          simp [List.filter_append, beq_iff_eq, hne]
      obtain ⟨parts', hfold, hl, hi⟩ := ih (acc ++ [kv]) newParts hlen' hinv'
      refine ⟨parts', ?_, hl, ?_⟩
      · simpa [List.foldlM_cons, hstep] using hfold
      · intro j hj
        rw [hi j hj]
        simp

/-- When the `uint32`-truncated reducer count is zero and at least one
pair is emitted, the partitioning loop's first iteration divides by
zero (Go panic). -/
theorem doMapPartitions_divzero (kv : KeyValue) (kvs : List KeyValue) (n : Nat)
    (hn : uint32 n = 0) :
    doMapPartitions (kv :: kvs) n = Except.error "runtime error: integer divide by zero" := by
  unfold doMapPartitions
  rw [List.foldlM_cons]
  have hstep : partitionStep n (List.replicate n []) kv =
      Except.error "runtime error: integer divide by zero" := by
    simp [partitionStep, hn]
  rw [hstep]
  rfl

/-- Characterization of every successful run of `DoMap`'s partitioning:
the table has `numReducers` entries, and entry `j` holds, in emission
order, exactly the pairs whose `partitionIndex` is `j`. -/
theorem doMapPartitions_ok_char (kvs : List KeyValue) (n : Nat)
    (parts : List (List KeyValue))
    (h : doMapPartitions kvs n = Except.ok parts) :
    parts.length = n ∧ ∀ j (hj : j < parts.length),
      parts.get ⟨j, hj⟩ = kvs.filter (fun kv => partitionIndex kv.key n == j) := by
  by_cases hn : uint32 n = 0
  · cases kvs with
    | nil =>
        have hok : Except.ok (ε := String) (List.replicate n ([] : List KeyValue)) =
            Except.ok parts := h
        have hp : parts = List.replicate n [] := (Except.ok.inj hok).symm
        subst hp
        refine ⟨by simp, ?_⟩
        intro j hj
        simp [List.get_eq_getElem, List.getElem_replicate]
    | cons kv rest =>
        rw [doMapPartitions_divzero kv rest n hn] at h
        cases h
  · obtain ⟨parts', hfold, hlen, hinv⟩ :=
      foldlM_partitionStep n hn kvs [] (List.replicate n [])
        (by simp)
        (by intro j hj; simp [List.get_eq_getElem, List.getElem_replicate])
    have h2 : List.foldlM (partitionStep n) (List.replicate n []) kvs =
        Except.ok parts := h
    have hpp : parts' = parts := Except.ok.inj (hfold.symm.trans h2)
    subst hpp
    refine ⟨hlen, ?_⟩
    intro j hj
    simpa using hinv j hj

/-- C5: every successful execution of `DoMap`'s partitioning with
`numReducers` reducers yields exactly `numReducers` partitions — one
per reducer index, possibly empty — each holding its pairs in the order
the map function emitted them; the file-writing loop then appends
partition `j` to partition file `j` (creating it if absent) and touches
no file outside `0 .. numReducers-1`. -/
theorem C5_map_partition_files (kvs : List KeyValue) (numReducers : Nat)
    (parts : List (List KeyValue))
    (h : doMapPartitions kvs numReducers = Except.ok parts) :
    parts.length = numReducers ∧
    (∀ j (hj : j < parts.length),
      parts.get ⟨j, hj⟩ = kvs.filter (fun kv => partitionIndex kv.key numReducers == j)) ∧
    (∀ prev j (hj : j < parts.length),
      doMapWriteFiles prev parts j = prev j ++ parts.get ⟨j, hj⟩) ∧
    (∀ prev i, parts.length ≤ i → doMapWriteFiles prev parts i = prev i) := by
  obtain ⟨hlen, hinv⟩ := doMapPartitions_ok_char kvs numReducers parts h
  refine ⟨hlen, hinv, ?_, ?_⟩
  · intro prev j hj
    simp [doMapWriteFiles, hj]
  · intro prev i hi
    simp [doMapWriteFiles, Nat.not_lt.mpr hi]

/-- Witness for C5 at a concrete input: three pairs, two reducers. -/
theorem C5_witness :
    doMapPartitions [⟨"a", "1"⟩, ⟨"b", "2"⟩, ⟨"a", "3"⟩] 2 =
      Except.ok [[⟨"a", "1"⟩, ⟨"a", "3"⟩], [⟨"b", "2"⟩]] ∧
    ([[⟨"a", "1"⟩, ⟨"a", "3"⟩], [⟨"b", "2"⟩]] : List (List KeyValue)).length = 2 := by
  have h : doMapPartitions [⟨"a", "1"⟩, ⟨"b", "2"⟩, ⟨"a", "3"⟩] 2 =
      Except.ok [[⟨"a", "1"⟩, ⟨"a", "3"⟩], [⟨"b", "2"⟩]] := rfl
  exact ⟨h, (C5_map_partition_files _ _ _ h).1⟩

/-- C1 (amended): in every successful `DoMap` partitioning, each
emitted pair lands in exactly one partition, the one whose index is
`ihash(key) % uint32(numReducers)` — a pure deterministic function of
the key and `numReducers` alone; whenever `numReducers < 2^32` that
index equals `ihash(key) % numReducers` as the claim words it.  (The
unamended claim fails when `numReducers ≥ 2^32`, where Go's `uint32`
conversion truncates the divisor.) -/
theorem C1_amended_partition_routing (kvs : List KeyValue) (numReducers : Nat)
    (parts : List (List KeyValue))
    (h : doMapPartitions kvs numReducers = Except.ok parts) :
    (∀ kv, kv ∈ kvs → ∀ j (hj : j < parts.length),
      (kv ∈ parts.get ⟨j, hj⟩ ↔ j = partitionIndex kv.key numReducers)) ∧
    (∀ key, numReducers < 4294967296 →
      partitionIndex key numReducers = ihash key % numReducers) := by
  obtain ⟨hlen, hinv⟩ := doMapPartitions_ok_char kvs numReducers parts h
  constructor
  · intro kv hkv j hj
    rw [hinv j hj, List.mem_filter]
    simp only [hkv, true_and, beq_iff_eq]
    exact eq_comm
  · intro key hlt
    unfold partitionIndex uint32
    rw [Nat.mod_eq_of_lt hlt]

/-- Witness for C1 (amended) at a concrete input. -/
theorem C1_witness : (0 : Nat) = partitionIndex "a" 2 := by
  have h : doMapPartitions [⟨"a", "1"⟩] 2 = Except.ok [[⟨"a", "1"⟩], []] := rfl
  have hiff := (C1_amended_partition_routing _ _ _ h).1 ⟨"a", "1"⟩ (by simp) 0 (by simp)
  exact hiff.mp (by simp)

/-- C1 counterexample: with `numReducers = 2^32 + 1` the single emitted
pair is routed to partition 0 (the divisor is truncated to
`uint32(2^32+1) = 1`), while `ihash(key) mod numReducers` is
`2166136261 ≠ 0` — so the claimed routing formula does not match the
code for reducer counts at or above `2^32`. -/
theorem C1_counterexample :
    doMapPartitions [⟨"", "x"⟩] 4294967297 =
      Except.ok ((List.replicate 4294967297 ([] : List KeyValue)).set 0 [⟨"", "x"⟩]) ∧
    ihash "" % 4294967297 = 2166136261 ∧ (2166136261 : Nat) ≠ 0 := by
  refine ⟨?_, by decide, by decide⟩
  have hn : uint32 4294967297 ≠ 0 := by decide
  have hidx : partitionIndex "" 4294967297 = 0 := by decide
  have h0 : partitionIndex "" 4294967297 <
      (List.replicate 4294967297 ([] : List KeyValue)).length := by
    rw [hidx, List.length_replicate]
    decide
  have hstep : partitionStep 4294967297 (List.replicate 4294967297 []) ⟨"", "x"⟩ =
      Except.ok ((List.replicate 4294967297 ([] : List KeyValue)).set 0 [⟨"", "x"⟩]) := by
    unfold partitionStep
    rw [if_neg hn, dif_pos h0]
    rw [List.get_eq_getElem, List.getElem_replicate, List.nil_append, hidx]
  unfold doMapPartitions
  rw [List.foldlM_cons, hstep]
  rfl

/-- C10 (amended): with `numReducers = 0` and a non-empty map output
the partitioning step divides by zero and the operation panics; the
failure branch is unreachable under the precondition
`1 ≤ numReducers < 2^32` (the unamended precondition `numReducers ≥ 1`
is not enough: any positive multiple of `2^32` is truncated to a zero
divisor by Go's `uint32` conversion and panics identically). -/
theorem C10_amended_divzero_guard (kvs : List KeyValue) (numReducers : Nat) :
    (numReducers = 0 → kvs ≠ [] →
      doMapPartitions kvs numReducers =
        Except.error "runtime error: integer divide by zero") ∧
    (1 ≤ numReducers → numReducers < 4294967296 →
      ∃ parts, doMapPartitions kvs numReducers = Except.ok parts) := by
  constructor
  · intro h0 hne
    subst h0
    cases kvs with
    | nil => exact absurd rfl hne
    | cons kv rest => exact doMapPartitions_divzero kv rest 0 (by decide)
  · intro h1 h2
    have hn : uint32 numReducers ≠ 0 := by
      unfold uint32
      rw [Nat.mod_eq_of_lt h2]
      omega
    obtain ⟨parts, hfold, -, -⟩ := foldlM_partitionStep numReducers hn kvs []
      (List.replicate numReducers []) (by simp)
      (by intro j hj; simp [List.get_eq_getElem, List.getElem_replicate])
    exact ⟨parts, hfold⟩

/-- Witness for C10 (amended): panic at zero reducers, success at two. -/
theorem C10_witness :
    doMapPartitions [⟨"a", "1"⟩] 0 =
      Except.error "runtime error: integer divide by zero" ∧
    ∃ parts, doMapPartitions [⟨"a", "1"⟩] 2 = Except.ok parts :=
  ⟨(C10_amended_divzero_guard [⟨"a", "1"⟩] 0).1 rfl (by simp),
   (C10_amended_divzero_guard [⟨"a", "1"⟩] 2).2 (by decide) (by decide)⟩

/-- C10 counterexample: `numReducers = 2^32` satisfies the claimed
precondition `numReducers ≥ 1`, yet the partitioning step still panics
with a division by zero, because `uint32(2^32) = 0`. -/
theorem C10_counterexample :
    (1 : Nat) ≤ 4294967296 ∧
    doMapPartitions [⟨"a", "1"⟩] 4294967296 =
      Except.error "runtime error: integer divide by zero" :=
  ⟨by decide, doMapPartitions_divzero _ _ _ (by decide)⟩

/-- One record of a partition file as `DoReduce`'s JSON decoder sees
it: either a successfully decodable `KeyValue` or an undecodable
(malformed) record. -/
inductive DiskRecord where
  | val (kv : KeyValue)
  | malformed
deriving DecidableEq, Repr

/-- `Option`-view of a record: `some` exactly on decodable records. -/
def toVal : DiskRecord → Option KeyValue
  | DiskRecord.val kv => some kv
  | DiskRecord.malformed => none

/-- The decode loop of `DoReduce` (lines 112-117 of the worker):
`for err := decoder.Decode(&kv); err == nil; err = decoder.Decode(&kv)`.
The loop stops at the first `Decode` that returns an error — whether
end-of-file or a malformed record — and the terminating error is never
examined afterwards: decoding yields the longest well-formed prefix of
the file and silently drops everything from the first malformed record
on. -/
def decodeStream : List DiskRecord → List KeyValue
  | [] => []
  | DiskRecord.val kv :: rest => kv :: decodeStream rest
  | DiskRecord.malformed :: _ => []

/-- Go map update `kvMap[key] = append(kvMap[key], val)` (line 116),
modelled as an association list in first-insertion key order. -/
def insertKV : List (String × List String) → String → String → List (String × List String)
  | [], key, v => [(key, [v])]
  | (k0, vs0) :: rest, key, v =>
      if k0 = key then (k0, vs0 ++ [v]) :: rest
      else (k0, vs0) :: insertKV rest key v

/-- Go map read `kvMap[key]`, returning `none` when absent. -/
def lookupKV : List (String × List String) → String → Option (List String)
  | [], _ => none
  | (k0, vs0) :: rest, key => if k0 = key then some vs0 else lookupKV rest key

/-- The grouping phase of `DoReduce` (lines 101-118): decode the
`numMappers` partition files in mapper order (`files` is indexed by
mapper number) and accumulate every decoded pair's value under its
key. -/
def buildKvMap (files : List (List DiskRecord)) : List (String × List String) :=
  ((files.map decodeStream).flatten).foldl (fun m kv => insertKV m kv.key kv.value) []

/-- The output phase of `DoReduce` (lines 120-137): iterate the Go map
in an arbitrary enumeration order `ord` (Go's map range order is
unspecified and varies between runs), invoke the user's reduce function
on each key's accumulated values, and collect one `KeyValue` per key in
that order. -/
def doReduceOutput (reduceF : String → List String → String)
    (files : List (List DiskRecord)) (ord : List String) : List KeyValue :=
  ord.filterMap fun k =>
    (lookupKV (buildKvMap files) k).map (fun vs => ⟨k, reduceF k vs⟩)

/-- The reducer's output file after `DoReduce` (lines 127-136):
`os.Create` truncates, so the previous content `prev` is discarded and
the file holds exactly the freshly produced records. -/
def doReduceWrittenFile (reduceF : String → List String → String)
    (files : List (List DiskRecord)) (ord : List String)
    (prev : List KeyValue) : List KeyValue :=
  doReduceOutput reduceF files ord

/-- Combining an optional previous value list with newly appended
values, the shape `lookupKV` takes after a grouping fold. -/
def combineOpt (o : Option (List String)) (vs : List String) : Option (List String) :=
  match o with
  | some vs0 => some (vs0 ++ vs)
  | none => match vs with
    | [] => none
    | _ :: _ => some vs

theorem lookup_insertKV (m : List (String × List String)) (key v k : String) :
    lookupKV (insertKV m key v) k =
      if k = key then some (((lookupKV m key).getD []) ++ [v]) else lookupKV m k := by
  induction m with
  | nil =>
      by_cases hk : k = key
      · subst hk; simp [insertKV, lookupKV]
      · simp [insertKV, lookupKV, hk, Ne.symm hk]
  | cons hd rest ih =>
      obtain ⟨k0, vs0⟩ := hd
      by_cases h0 : k0 = key
      · subst h0
        by_cases hk : k = k0
        · subst hk; simp [insertKV, lookupKV]
        · simp [insertKV, lookupKV, hk, Ne.symm hk]
      · by_cases hk : k0 = k
        · subst hk
          simp [insertKV, lookupKV, h0, Ne.symm h0]
        · simp [insertKV, lookupKV, h0, hk, ih]

theorem lookup_isSome_iff_mem (m : List (String × List String)) (k : String) :
    (lookupKV m k).isSome ↔ k ∈ m.map Prod.fst := by
  induction m with
  | nil => simp [lookupKV]
  | cons hd rest ih =>
      obtain ⟨k0, vs0⟩ := hd
      by_cases hk : k0 = k
      · subst hk; simp [lookupKV]
      · simp [lookupKV, hk, ih, Ne.symm hk]

theorem keys_insertKV (m : List (String × List String)) (key v : String) :
    (insertKV m key v).map Prod.fst =
      if key ∈ m.map Prod.fst then m.map Prod.fst else m.map Prod.fst ++ [key] := by
  induction m with
  | nil => simp [insertKV]
  | cons hd rest ih =>
      obtain ⟨k0, vs0⟩ := hd
      by_cases h0 : k0 = key
      · subst h0; simp [insertKV]
      · simp only [insertKV, if_neg h0, List.map_cons, ih]
        by_cases hmem : key ∈ rest.map Prod.fst
        · simp [hmem, Ne.symm h0]
        · simp [hmem, Ne.symm h0]

theorem nodup_keys_insertKV (m : List (String × List String)) (key v : String)
    (h : (m.map Prod.fst).Nodup) : ((insertKV m key v).map Prod.fst).Nodup := by
  rw [keys_insertKV]
  by_cases hmem : key ∈ m.map Prod.fst
  · simpa [hmem] using h
  · simp only [hmem, if_false]
    rw [List.nodup_append]
    exact ⟨h, List.nodup_singleton key, by simpa using hmem⟩

theorem nodup_keys_foldl_insert (l : List KeyValue) :
    ∀ m : List (String × List String), (m.map Prod.fst).Nodup →
      (((l.foldl (fun m kv => insertKV m kv.key kv.value) m)).map Prod.fst).Nodup := by
  induction l with
  | nil => intro m hm; simpa using hm
  | cons kv rest ih =>
      intro m hm
      exact ih _ (nodup_keys_insertKV m kv.key kv.value hm)

theorem lookup_foldl_insert (l : List KeyValue) :
    ∀ (m : List (String × List String)) (k : String),
      lookupKV (l.foldl (fun m kv => insertKV m kv.key kv.value) m) k =
        combineOpt (lookupKV m k) ((l.filter (fun kv => kv.key == k)).map KeyValue.value) := by
  induction l with
  | nil =>
      intro m k
      cases h : lookupKV m k <;> simp [combineOpt, h]
  | cons kv rest ih =>
      intro m k
      rw [List.foldl_cons, ih]
      by_cases hk : kv.key = k
      · rw [lookup_insertKV]
        simp only [if_pos hk.symm]
        cases h : lookupKV m k with
        | none =>
            have hkey : lookupKV m kv.key = none := hk ▸ h
            simp [combineOpt, h, hkey, List.filter_cons, hk]
        | some vs0 =>
            have hkey : lookupKV m kv.key = some vs0 := hk ▸ h
            simp [combineOpt, h, hkey, List.filter_cons, hk]
      · rw [lookup_insertKV]
        simp only [if_neg (Ne.symm hk)]
        simp [List.filter_cons, hk]

/-- Full characterization of the Go map `DoReduce` accumulates: looking
up `k` yields exactly the values carried by `k` in the decoded streams,
in file-read order (files in mapper order, records in file order), and
`none` exactly when no decoded pair carries `k`. -/
theorem lookup_buildKvMap (files : List (List DiskRecord)) (k : String) :
    lookupKV (buildKvMap files) k =
      combineOpt none
        ((((files.map decodeStream).flatten).filter (fun kv => kv.key == k)).map
          KeyValue.value) := by
  unfold buildKvMap
  rw [lookup_foldl_insert]
  rfl

theorem nodup_keys_buildKvMap (files : List (List DiskRecord)) :
    ((buildKvMap files).map Prod.fst).Nodup := by
  unfold buildKvMap
  exact nodup_keys_foldl_insert _ [] (by simp)

theorem mem_keys_buildKvMap (files : List (List DiskRecord)) (k : String) :
    k ∈ (buildKvMap files).map Prod.fst ↔
      ∃ kv ∈ (files.map decodeStream).flatten, kv.key = k := by
  rw [← lookup_isSome_iff_mem, lookup_buildKvMap]
  cases hf : ((files.map decodeStream).flatten).filter (fun kv => kv.key == k) with
  | nil =>
      simp only [combineOpt, List.map_nil, Option.isSome_none]
      constructor
      · intro h; cases h
      · rintro ⟨kv, hkv, hkey⟩
        have : kv ∈ ((files.map decodeStream).flatten).filter (fun kv => kv.key == k) := by
          rw [List.mem_filter]
          exact ⟨hkv, by simp [hkey]⟩
        rw [hf] at this
        cases this
  | cons kv0 tl =>
      simp only [combineOpt, List.map_cons, Option.isSome_some]
      constructor
      · intro _
        have : kv0 ∈ ((files.map decodeStream).flatten).filter (fun kv => kv.key == k) := by
          rw [hf]; exact List.mem_cons_self _ _
        rw [List.mem_filter] at this
        exact ⟨kv0, this.1, by simpa using this.2⟩
      · intro _; trivial

theorem decodeStream_of_wf (f : List DiskRecord) (h : DiskRecord.malformed ∉ f) :
    decodeStream f = f.filterMap toVal := by
  induction f with
  | nil => rfl
  | cons r rest ih =>
      cases r with
      | val kv =>
          have hrest : DiskRecord.malformed ∉ rest := fun hm => h (List.mem_cons_of_mem _ hm)
          simp [decodeStream, List.filterMap_cons, toVal, ih hrest]
      | malformed => exact absurd (List.mem_cons_self _ _) h

theorem decodeStream_length_of_wf (f : List DiskRecord) (h : DiskRecord.malformed ∉ f) :
    (decodeStream f).length = f.length := by
  induction f with
  | nil => rfl
  | cons r rest ih =>
      cases r with
      | val kv =>
          have hrest : DiskRecord.malformed ∉ rest := fun hm => h (List.mem_cons_of_mem _ hm)
          simp [decodeStream, ih hrest]
      | malformed => exact absurd (List.mem_cons_self _ _) h

theorem mem_decodeStream_of_wf (f : List DiskRecord) (h : DiskRecord.malformed ∉ f)
    (kv : KeyValue) (hkv : DiskRecord.val kv ∈ f) : kv ∈ decodeStream f := by
  rw [decodeStream_of_wf f h]
  exact List.mem_filterMap.mpr ⟨DiskRecord.val kv, hkv, rfl⟩

/-- The output records' keys are, in order, the enumerated keys that
are present in the accumulated map. -/
theorem keys_doReduceOutput (rf : String → List String → String)
    (files : List (List DiskRecord)) (ord : List String) :
    (doReduceOutput rf files ord).map KeyValue.key =
      ord.filter (fun k => (lookupKV (buildKvMap files) k).isSome) := by
  induction ord with
  | nil => rfl
  | cons k rest ih =>
      unfold doReduceOutput at ih ⊢
      cases h : lookupKV (buildKvMap files) k with
      | none => simp [List.filterMap_cons, List.filter_cons, h, ih]
      | some vs => simp [List.filterMap_cons, List.filter_cons, h, ih]

theorem mem_doReduceOutput (rf : String → List String → String)
    (files : List (List DiskRecord)) (ord : List String) (kv : KeyValue) :
    kv ∈ doReduceOutput rf files ord ↔
      ∃ k ∈ ord, ∃ vs, lookupKV (buildKvMap files) k = some vs ∧
        kv = ⟨k, rf k vs⟩ := by
  unfold doReduceOutput
  rw [List.mem_filterMap]
  constructor
  · rintro ⟨k, hk, hmap⟩
    cases h : lookupKV (buildKvMap files) k with
    | none => rw [h] at hmap; cases hmap
    | some vs =>
        rw [h] at hmap
        have hmap2 : some (⟨k, rf k vs⟩ : KeyValue) = some kv := hmap
        exact ⟨k, hk, vs, h, (Option.some.inj hmap2).symm⟩
  · rintro ⟨k, hk, vs, hvs, hkv⟩
    exact ⟨k, hk, by rw [hvs, hkv]; rfl⟩

/-- C4: for every run of `DoReduce` over well-formed partition files —
`files` listing the `numMappers` partition files addressed to this
reducer, in mapper order — every record of every file is deserialized;
the produced output has exactly one `KeyValue` per distinct key present
in the files; each output value is the reduce function applied to that
key's values in file-read order; and the output file is overwritten,
its previous content ignored.  `ord`, the Go map enumeration order, may
be any permutation of the accumulated keys. -/
theorem C4_reduce_grouping (rf : String → List String → String)
    (files : List (List DiskRecord)) (ord : List String)
    (hwf : ∀ f ∈ files, DiskRecord.malformed ∉ f)
    (hord : ord.Perm ((buildKvMap files).map Prod.fst)) :
    (∀ f ∈ files, (decodeStream f).length = f.length ∧
      ∀ kv : KeyValue, DiskRecord.val kv ∈ f → kv ∈ decodeStream f) ∧
    ((doReduceOutput rf files ord).map KeyValue.key).Nodup ∧
    (∀ k : String, (∃ kv ∈ doReduceOutput rf files ord, kv.key = k) ↔
      ∃ kv ∈ (files.map decodeStream).flatten, kv.key = k) ∧
    (∀ kv ∈ doReduceOutput rf files ord,
      kv.value = rf kv.key
        ((((files.map decodeStream).flatten).filter
            (fun p => p.key == kv.key)).map KeyValue.value)) ∧
    (∀ prev : List KeyValue,
      doReduceWrittenFile rf files ord prev = doReduceOutput rf files ord) := by
  refine ⟨?_, ?_, ?_, ?_, ?_⟩
  · intro f hf
    exact ⟨decodeStream_length_of_wf f (hwf f hf), mem_decodeStream_of_wf f (hwf f hf)⟩
  · rw [keys_doReduceOutput]
    exact (hord.nodup_iff.mpr (nodup_keys_buildKvMap files)).filter _
  · intro k
    have h1 : (∃ kv ∈ doReduceOutput rf files ord, kv.key = k) ↔
        k ∈ (doReduceOutput rf files ord).map KeyValue.key := by
      simp [List.mem_map]
    rw [h1, keys_doReduceOutput, List.mem_filter, ← mem_keys_buildKvMap]
    constructor
    · rintro ⟨-, hsome⟩
      exact (lookup_isSome_iff_mem _ _).mp (by simpa using hsome)
    · intro hmem
      exact ⟨hord.mem_iff.mpr hmem, by simp [(lookup_isSome_iff_mem _ _).mpr hmem]⟩
  · intro kv hkv
    obtain ⟨k, hk, vs, hvs, hkveq⟩ := (mem_doReduceOutput rf files ord kv).mp hkv
    subst hkveq
    rw [lookup_buildKvMap] at hvs
    simp only
    cases hfil : (((files.map decodeStream).flatten).filter (fun p => p.key == k)).map
        KeyValue.value with
    | nil =>
        rw [hfil] at hvs
        cases hvs
    | cons v tl =>
        rw [hfil] at hvs
        have hvs2 : some (v :: tl) = some vs := hvs
        rw [← Option.some.inj hvs2]
  · intro prev
    rfl

/-- Witness for C4 at a concrete input: two well-formed partition
files, key "a" split across both. -/
theorem C4_witness :
    ((doReduceOutput (fun _ vs => vs.headD "")
        [[DiskRecord.val ⟨"a", "1"⟩],
         [DiskRecord.val ⟨"b", "2"⟩, DiskRecord.val ⟨"a", "3"⟩]]
        ["a", "b"]).map KeyValue.key).Nodup :=
  (C4_reduce_grouping (fun _ vs => vs.headD "")
    [[DiskRecord.val ⟨"a", "1"⟩],
     [DiskRecord.val ⟨"b", "2"⟩, DiskRecord.val ⟨"a", "3"⟩]]
    ["a", "b"] (by decide) (by decide)).2.1

/-- C8 (amended): the set of records `DoReduce` produces does not
depend on the Go map enumeration order — outputs of any two runs over
identical partition-file contents are permutations of one another
(same records, one per key, with identical values); only their order in
the output file may differ. -/
theorem C8_amended_output_perm (rf : String → List String → String)
    (files : List (List DiskRecord)) (ord1 ord2 : List String)
    (h1 : ord1.Perm ((buildKvMap files).map Prod.fst))
    (h2 : ord2.Perm ((buildKvMap files).map Prod.fst)) :
    (doReduceOutput rf files ord1).Perm (doReduceOutput rf files ord2) := by
  unfold doReduceOutput
  exact (h1.trans h2.symm).filterMap _

/-- Witness for C8 (amended) at a concrete input. -/
theorem C8_witness :
    (doReduceOutput (fun k _ => k)
      [[DiskRecord.val ⟨"a", "1"⟩, DiskRecord.val ⟨"b", "2"⟩]] ["a", "b"]).Perm
    (doReduceOutput (fun k _ => k)
      [[DiskRecord.val ⟨"a", "1"⟩, DiskRecord.val ⟨"b", "2"⟩]] ["b", "a"]) :=
  C8_amended_output_perm (fun k _ => k)
    [[DiskRecord.val ⟨"a", "1"⟩, DiskRecord.val ⟨"b", "2"⟩]]
    ["a", "b"] ["b", "a"] (by decide) (by decide)

/-- C8 counterexample: two runs of `DoReduce` over identical
partition-file contents, differing only in the (unspecified) Go map
enumeration order, produce different output record sequences — so the
reducer's output file is not byte-identical across runs. -/
theorem C8_counterexample :
    (["a", "b"] : List String).Perm
      ((buildKvMap [[DiskRecord.val ⟨"a", "1"⟩, DiskRecord.val ⟨"b", "2"⟩]]).map
        Prod.fst) ∧
    (["b", "a"] : List String).Perm
      ((buildKvMap [[DiskRecord.val ⟨"a", "1"⟩, DiskRecord.val ⟨"b", "2"⟩]]).map
        Prod.fst) ∧
    doReduceOutput (fun k _ => k)
        [[DiskRecord.val ⟨"a", "1"⟩, DiskRecord.val ⟨"b", "2"⟩]] ["a", "b"] ≠
      doReduceOutput (fun k _ => k)
        [[DiskRecord.val ⟨"a", "1"⟩, DiskRecord.val ⟨"b", "2"⟩]] ["b", "a"] := by
  refine ⟨by decide, by decide, by decide⟩

/-- C6 (amended): a malformed record does not abort the consuming
reduce task — decoding a partition file simply stops at the first
malformed record, so the records before it are used, every record from
it on is silently dropped, and `DoReduce` completes normally on the
truncated data. -/
theorem C6_amended_silent_truncation (f g : List DiskRecord)
    (rf : String → List String → String) (ord : List String) :
    decodeStream (f ++ DiskRecord.malformed :: g) = decodeStream f ∧
    buildKvMap [f ++ DiskRecord.malformed :: g] = buildKvMap [f] ∧
    doReduceOutput rf [f ++ DiskRecord.malformed :: g] ord =
      doReduceOutput rf [f] ord := by
  have hdec : decodeStream (f ++ DiskRecord.malformed :: g) = decodeStream f := by
    induction f with
    | nil => rfl
    | cons r rest ih =>
        cases r with
        | val kv => simp [decodeStream, ih]
        | malformed => rfl
  refine ⟨hdec, ?_, ?_⟩
  · simp [buildKvMap, hdec]
  · simp [doReduceOutput, buildKvMap, hdec]

/-- C6 counterexample: a partition file whose second record is
malformed.  The claim predicts a fatal error of the reduce task; the
code instead decodes only the first record, never groups the third
record's key "b" at all, and completes normally. -/
theorem C6_counterexample :
    decodeStream [DiskRecord.val ⟨"a", "1"⟩, DiskRecord.malformed,
        DiskRecord.val ⟨"b", "2"⟩] = [⟨"a", "1"⟩] ∧
    (buildKvMap [[DiskRecord.val ⟨"a", "1"⟩, DiskRecord.malformed,
        DiskRecord.val ⟨"b", "2"⟩]]).map Prod.fst = ["a"] ∧
    doReduceOutput (fun _ vs => vs.headD "")
        [[DiskRecord.val ⟨"a", "1"⟩, DiskRecord.malformed,
          DiskRecord.val ⟨"b", "2"⟩]] ["a"] = [⟨"a", "1"⟩] := by
  refine ⟨rfl, rfl, rfl⟩

/-- The observable worker state relevant to registration and shutdown:
the `active` flag (`atomic.StoreInt32` at lines 43 and 142) and whether
the RPC listener is open (`rpcListener.Close()` at line 143). -/
structure WorkerState where
  active : Bool
  listenerOpen : Bool
deriving DecidableEq, Repr

/-- `Worker.Shutdown` (lines 140-144): clears the active flag and
closes the listener. -/
def shutdownWorker (w : WorkerState) : WorkerState :=
  { active := false, listenerOpen := false }

/-- The outcome of the registration loop: how many `callMaster`
invocations were made, the milliseconds slept after each failed call,
and whether registration succeeded. -/
structure RegTrace where
  calls : Nat
  sleeps : List Nat
  registered : Bool
deriving DecidableEq, Repr

/-- The retry loop of `Worker.RegisterWithServer` (lines 157-166):
`for i := 0; i < 40 && !ok; i++ { ok = callMaster(...); if !ok { sleep 250ms } }`.
`oracle i` is the success of the `i`-th `callMaster` attempt; `i` is
the loop counter, `remaining` the attempts left, and `calls`/`sleeps`
the accumulated trace. -/
def regLoop (oracle : Nat → Bool) : Nat → Nat → Nat → List Nat → RegTrace
  | _, 0, calls, sleeps => ⟨calls, sleeps, false⟩
  | i, remaining + 1, calls, sleeps =>
      if oracle i then ⟨calls + 1, sleeps, true⟩
      else regLoop oracle (i + 1) remaining (calls + 1) (sleeps ++ [250])

/-- `Worker.RegisterWithServer` (lines 155-174): run the 40-attempt
retry loop; on total failure call `Shutdown`, otherwise leave the
worker untouched. -/
def registerWithServer (oracle : Nat → Bool) (w : WorkerState) : RegTrace × WorkerState :=
  let t := regLoop oracle 0 40 0 []
  (t, if t.registered then w else shutdownWorker w)

theorem regLoop_calls_le (oracle : Nat → Bool) :
    ∀ (remaining i calls : Nat) (sleeps : List Nat),
      (regLoop oracle i remaining calls sleeps).calls ≤ calls + remaining := by
  intro remaining
  induction remaining with
  | zero => intro i calls sleeps; simp [regLoop]
  | succ rem ih =>
      intro i calls sleeps
      by_cases h : oracle i
      · simp [regLoop, h]
      · simp only [regLoop, h, if_false]
        calc (regLoop oracle (i + 1) rem (calls + 1) (sleeps ++ [250])).calls
            ≤ (calls + 1) + rem := ih (i + 1) (calls + 1) (sleeps ++ [250])
          _ ≤ calls + (rem + 1) := by omega

/-- If every attempt in the window fails, the loop exhausts its
attempts: 40 calls, a 250 ms sleep after each, no registration. -/
theorem regLoop_all_fail (oracle : Nat → Bool) :
    ∀ (remaining i calls : Nat) (sleeps : List Nat),
      (∀ j, i ≤ j → j < i + remaining → oracle j = false) →
      regLoop oracle i remaining calls sleeps =
        ⟨calls + remaining, sleeps ++ List.replicate remaining 250, false⟩ := by
  intro remaining
  induction remaining with
  | zero => intro i calls sleeps hfail; simp [regLoop]
  | succ rem ih =>
      intro i calls sleeps hfail
      have h0 : oracle i = false := hfail i (Nat.le_refl i) (by omega)
      rw [regLoop, h0]
      simp only [Bool.false_eq_true, if_false]
      rw [ih (i + 1) (calls + 1) (sleeps ++ [250]) (fun j h1 h2 => hfail j (by omega) (by omega))]
      simp only [RegTrace.mk.injEq]
      refine ⟨by omega, ?_, trivial⟩
      simp [List.replicate_succ]

/-- If the first success in the window is at offset `k`, the loop stops
there: `k + 1` calls, `k` sleeps of 250 ms, registration succeeds. -/
theorem regLoop_first_success (oracle : Nat → Bool) :
    ∀ (k remaining i calls : Nat) (sleeps : List Nat),
      k < remaining →
      (∀ j, i ≤ j → j < i + k → oracle j = false) →
      oracle (i + k) = true →
      regLoop oracle i remaining calls sleeps =
        ⟨calls + k + 1, sleeps ++ List.replicate k 250, true⟩ := by
  intro k
  induction k with
  | zero =>
      intro remaining i calls sleeps hk hfail hsucc
      obtain ⟨rem, rfl⟩ := Nat.exists_eq_add_of_lt hk
      rw [regLoop]
      simp at hsucc
      rw [hsucc]
      simp
  | succ k0 ih =>
      intro remaining i calls sleeps hk hfail hsucc
      obtain ⟨rem, rfl⟩ := Nat.exists_eq_add_of_lt hk
      have h0 : oracle i = false := hfail i (Nat.le_refl i) (by omega)
      rw [regLoop, h0]
      simp only [Bool.false_eq_true, if_false]
      rw [ih (k0 + 1 + rem) (i + 1) (calls + 1) (sleeps ++ [250]) (by omega)
        (fun j h1 h2 => hfail j (by omega) (by omega))
        (by rw [show i + 1 + k0 = i + (k0 + 1) by omega]; exact hsucc)]
      simp only [RegTrace.mk.injEq]
      refine ⟨by omega, ?_, trivial⟩
      simp [List.replicate_succ]

theorem regLoop_sleeps (oracle : Nat → Bool) :
    ∀ (remaining i calls : Nat) (sleeps : List Nat),
      (∀ s ∈ sleeps, s = 250) →
      ∀ s ∈ (regLoop oracle i remaining calls sleeps).sleeps, s = 250 := by
  intro remaining
  induction remaining with
  | zero => intro i calls sleeps hs; simpa [regLoop] using hs
  | succ rem ih =>
      intro i calls sleeps hs
      by_cases h : oracle i
      · simpa [regLoop, h] using hs
      · simp only [regLoop, h, if_false]
        refine ih (i + 1) (calls + 1) (sleeps ++ [250]) ?_
        intro s hsmem
        rcases List.mem_append.mp hsmem with hin | hin
        · exact hs s hin
        · simpa using hin

/-- C7: worker registration is retried on a fixed schedule of at most
40 attempts; each failed attempt is followed by a 250 ms sleep;
attempts stop at the first success, which leaves the worker running
untouched; and if all 40 attempts fail the worker shuts itself down —
its active flag cleared and its listener closed.  `oracle i` gives the
success of the `i`-th `callMaster` attempt. -/
theorem C7_registration_retry (oracle : Nat → Bool) (w : WorkerState) :
    (registerWithServer oracle w).1.calls ≤ 40 ∧
    (∀ s ∈ (registerWithServer oracle w).1.sleeps, s = 250) ∧
    (∀ k, k < 40 → oracle k = true → (∀ j, j < k → oracle j = false) →
      (registerWithServer oracle w).1 = ⟨k + 1, List.replicate k 250, true⟩ ∧
      (registerWithServer oracle w).2 = w) ∧
    ((∀ j, j < 40 → oracle j = false) →
      (registerWithServer oracle w).1 = ⟨40, List.replicate 40 250, false⟩ ∧
      (registerWithServer oracle w).2.active = false ∧
      (registerWithServer oracle w).2.listenerOpen = false) := by
  refine ⟨?_, ?_, ?_, ?_⟩
  · show (regLoop oracle 0 40 0 []).calls ≤ 40
    simpa using regLoop_calls_le oracle 40 0 0 []
  · show ∀ s ∈ (regLoop oracle 0 40 0 []).sleeps, s = 250
    exact regLoop_sleeps oracle 40 0 0 [] (by simp)
  · intro k hk hsucc hfail
    have hloop : regLoop oracle 0 40 0 [] = ⟨0 + k + 1, [] ++ List.replicate k 250, true⟩ :=
      regLoop_first_success oracle k 40 0 0 [] hk
        (fun j h1 h2 => hfail j (by omega)) (by simpa using hsucc)
    have hloop2 : regLoop oracle 0 40 0 [] = ⟨k + 1, List.replicate k 250, true⟩ := by
      simpa using hloop
    constructor
    · exact hloop2
    · show (if (regLoop oracle 0 40 0 []).registered then w else shutdownWorker w) = w
      rw [hloop2]
      rfl
  · intro hfail
    have hloop : regLoop oracle 0 40 0 [] = ⟨0 + 40, [] ++ List.replicate 40 250, false⟩ :=
      regLoop_all_fail oracle 40 0 0 [] (fun j h1 h2 => hfail j (by omega))
    have hloop2 : regLoop oracle 0 40 0 [] = ⟨40, List.replicate 40 250, false⟩ := by
      simpa using hloop
    refine ⟨hloop2, ?_, ?_⟩
    · show (if (regLoop oracle 0 40 0 []).registered then w else shutdownWorker w).active = false
      rw [hloop2]
      rfl
    · show (if (regLoop oracle 0 40 0 []).registered then w
          else shutdownWorker w).listenerOpen = false
      rw [hloop2]
      rfl

/-- Witness for C7 at concrete oracles: success on the third attempt
(two sleeps, worker untouched), and total failure (shutdown). -/
theorem C7_witness :
    (registerWithServer (fun i => i == 2) ⟨true, true⟩).1 =
      ⟨3, List.replicate 2 250, true⟩ ∧
    (registerWithServer (fun i => i == 2) ⟨true, true⟩).2 = ⟨true, true⟩ ∧
    (registerWithServer (fun _ => false) ⟨true, true⟩).2.active = false := by
  have h1 := (C7_registration_retry (fun i => i == 2) ⟨true, true⟩).2.2.1 2
    (by decide) (by decide) (by decide)
  have h2 := (C7_registration_retry (fun _ => false) ⟨true, true⟩).2.2.2
    (fun j hj => rfl)
  exact ⟨h1.1, h1.2, h2.2.1⟩

/-- A decimal digit as a character (the digit table of Go's
`strconv.Itoa`). -/
def digitChar : Nat → Char
  | 0 => '0' | 1 => '1' | 2 => '2' | 3 => '3' | 4 => '4'
  | 5 => '5' | 6 => '6' | 7 => '7' | 8 => '8' | _ => '9'

/-- The decimal representation of a natural number, most significant
digit first: the semantics of Go's `strconv.Itoa` on a non-negative
value. -/
def natDigits (n : Nat) : List Char :=
  if h : n < 10 then [digitChar n]
  else natDigits (n / 10) ++ [digitChar (n % 10)]
decreasing_by exact Nat.div_lt_self (by omega) (by omega)

/-- Reading a digit string back as a number: left inverse of
`natDigits`. -/
def digitsVal (l : List Char) : Nat :=
  l.foldl (fun a c => a * 10 + (c.toNat - 48)) 0

theorem digitChar_toNat : ∀ d, d < 10 → (digitChar d).toNat = 48 + d := by decide

theorem digitChar_ne_hyphen : ∀ d, d < 10 → digitChar d ≠ '-' := by decide

theorem digitsVal_append_singleton (xs : List Char) (c : Char) :
    digitsVal (xs ++ [c]) = digitsVal xs * 10 + (c.toNat - 48) := by
  unfold digitsVal
  rw [List.foldl_append]
  rfl

theorem digitsVal_natDigits (n : Nat) : digitsVal (natDigits n) = n := by
  induction n using Nat.strong_induction_on with
  | _ n ih =>
      rw [natDigits]
      by_cases h : n < 10
      · rw [dif_pos h]
        show 0 * 10 + ((digitChar n).toNat - 48) = n
        rw [digitChar_toNat n h]
        omega
      · rw [dif_neg h, digitsVal_append_singleton,
          ih (n / 10) (Nat.div_lt_self (by omega) (by omega)),
          digitChar_toNat (n % 10) (Nat.mod_lt n (by omega))]
        omega

theorem natDigits_inj (a b : Nat) (h : natDigits a = natDigits b) : a = b := by
  rw [← digitsVal_natDigits a, ← digitsVal_natDigits b, h]

theorem hyphen_not_mem_natDigits (n : Nat) : '-' ∉ natDigits n := by
  induction n using Nat.strong_induction_on with
  | _ n ih =>
      rw [natDigits]
      by_cases h : n < 10
      · rw [dif_pos h]
        simpa using (digitChar_ne_hyphen n h).symm
      · rw [dif_neg h]
        intro hmem
        rcases List.mem_append.mp hmem with hin | hin
        · exact ih (n / 10) (Nat.div_lt_self (by omega) (by omega)) hin
        · have : '-' = digitChar (n % 10) := by simpa using hin
          exact digitChar_ne_hyphen (n % 10) (Nat.mod_lt n (by omega)) this.symm

/-- Splitting at a separator that occurs in neither left part is
unambiguous. -/
theorem append_sep_inj (c : Char) :
    ∀ (a a' b b' : List Char), c ∉ a → c ∉ a' →
      a ++ c :: b = a' ++ c :: b' → a = a' ∧ b = b' := by
  intro a
  induction a with
  | nil =>
      intro a' b b' ha ha' heq
      cases a' with
      | nil => simpa using heq
      | cons x xs =>
          simp only [List.nil_append, List.cons_append, List.cons.injEq] at heq
          exact absurd (heq.1 ▸ List.mem_cons_self x xs) ha'
  | cons y ys ih =>
      intro a' b b' ha ha' heq
      cases a' with
      | nil =>
          simp only [List.nil_append, List.cons_append, List.cons.injEq] at heq
          exact absurd (heq.1.symm ▸ List.mem_cons_self y ys) ha
      | cons x xs =>
          simp only [List.cons_append, List.cons.injEq] at heq
          have hys : c ∉ ys := fun hm => ha (List.mem_cons_of_mem y hm)
          have hxs : c ∉ xs := fun hm => ha' (List.mem_cons_of_mem x hm)
          obtain ⟨h1, h2⟩ := ih xs b b' hys hxs heq.2
          exact ⟨by rw [heq.1, h1], h2⟩

/-- Modelled from the spec: the configurable data output directory
(`mr.DataOutputDir`), a string constant of the `mapreduce` package
absent from the sources at hand; its concrete value plays no role in
the naming claims, which fix it. -/
def DataOutputDir : String := "data/"

/-- The partition-file naming scheme, from `reduceInputName` in
`pagerank/main.go` (lines 265-269), documented there as an exact copy
of the `mapreduce` package's private method; the worker's `DoMap`
(line 76) and the master compute this same function:
`DataOutputDir + "mr." + jobName + "-" + Itoa(mapperNum) + "-" + Itoa(reducerNum)`. -/
def reduceInputName (jobName : String) (mapperNum reducerNum : Nat) : String :=
  DataOutputDir ++ "mr." ++ jobName ++ "-" ++
    String.mk (natDigits mapperNum) ++ "-" ++ String.mk (natDigits reducerNum)

theorem reduceInputName_data (jobName : String) (m r : Nat) :
    (reduceInputName jobName m r).data =
      (DataOutputDir.data ++ "mr.".data ++ jobName.data ++ "-".data) ++
        (natDigits m ++ '-' :: natDigits r) := by
  simp [reduceInputName, String.data_append]

/-- C9: the partition-file name is a deterministic pure function of
(jobName, mapperIndex, reducerIndex) — so every worker and the master,
all invoking this same function, compute the identical name without
coordination — and for a fixed job it is injective in the pair
(mapperIndex, reducerIndex): distinct pairs never collide, because the
decimal digit runs contain no hyphen and the hyphen separator makes the
split unambiguous. -/
theorem C9_reduce_input_name_injective (jobName : String)
    (m1 r1 m2 r2 : Nat)
    (h : reduceInputName jobName m1 r1 = reduceInputName jobName m2 r2) :
    m1 = m2 ∧ r1 = r2 := by
  have hdata := congrArg String.data h
  rw [reduceInputName_data, reduceInputName_data] at hdata
  have htail := List.append_cancel_left hdata
  obtain ⟨h1, h2⟩ := append_sep_inj '-' (natDigits m1) (natDigits m2)
    (natDigits r1) (natDigits r2)
    (hyphen_not_mem_natDigits m1) (hyphen_not_mem_natDigits m2) htail
  exact ⟨natDigits_inj _ _ h1, natDigits_inj _ _ h2⟩

/-- Witness for C9 at a concrete triple. -/
theorem C9_witness : (1 : Nat) = 1 ∧ (2 : Nat) = 2 :=
  C9_reduce_input_name_injective "pagerank" 1 2 1 2 rfl

/-- Boolean key comparison used to sort the merged output: Lean's
`String` order is lexicographic on code points, which for UTF-8 encoded
strings coincides with byte-wise lexicographic order. -/
def kvLe (a b : KeyValue) : Bool := decide (a.key ≤ b.key)

/-- Modelled from the spec: the master's `merge()` — available once all
reduce tasks are completed, it reads every reducer's output file
(`outputs`, in reducer order), combines all (key, value) pairs into one
file sorted by key ascending in byte-wise string order, and returns
it.  The master's code is absent from the sources at hand. -/
def mergeOutputs (outputs : List (List KeyValue)) : List KeyValue :=
  (outputs.flatten).mergeSort kvLe

theorem mergeOutputs_sorted (outputs : List (List KeyValue)) :
    (mergeOutputs outputs).Pairwise (fun a b => a.key ≤ b.key) := by
  have h : List.Sorted (fun a b => kvLe a b = true) (mergeOutputs outputs) := by
    apply List.sorted_mergeSort
    · intro a b c h1 h2
      simp only [kvLe, decide_eq_true_eq] at h1 h2 ⊢
      exact le_trans h1 h2
    · intro a b
      simp only [kvLe]
      by_cases hab : a.key ≤ b.key
      · simp [hab]
      · simp [le_of_not_le hab]
  exact h.imp (fun hab => by simpa [kvLe] using hab)

theorem mergeOutputs_perm (outputs : List (List KeyValue)) :
    (mergeOutputs outputs).Perm outputs.flatten :=
  List.mergeSort_perm outputs.flatten kvLe

theorem nodup_flatten_keys (outputs : List (List KeyValue))
    (hnodup : ∀ o ∈ outputs, (o.map KeyValue.key).Nodup)
    (hdisj : outputs.Pairwise
      (fun o1 o2 => ∀ k, k ∈ o1.map KeyValue.key → k ∉ o2.map KeyValue.key)) :
    (outputs.flatten.map KeyValue.key).Nodup := by
  induction outputs with
  | nil => simp
  | cons o rest ih =>
      rw [List.flatten_cons, List.map_append, List.nodup_append]
      obtain ⟨hd1, hd2⟩ := List.pairwise_cons.mp hdisj
      refine ⟨hnodup o (List.mem_cons_self o rest),
        ih (fun o2 h2 => hnodup o2 (List.mem_cons_of_mem o h2)) hd2, ?_⟩
      intro k hk hkmem
      obtain ⟨kv, hkv, hkey⟩ := List.mem_map.mp hkmem
      obtain ⟨o2, ho2, hkvo2⟩ := List.mem_flatten.mp hkv
      exact hd1 o2 ho2 k hk (List.mem_map.mpr ⟨kv, hkvo2, hkey⟩)

/-- Two sorted-by-key lists that are permutations of each other and
have no duplicate keys are equal: sortedness plus key uniqueness pins
the output down completely. -/
theorem sorted_perm_nodup_keys_eq :
    ∀ (l1 l2 : List KeyValue), l1.Perm l2 →
      l1.Pairwise (fun a b => a.key ≤ b.key) →
      l2.Pairwise (fun a b => a.key ≤ b.key) →
      (l1.map KeyValue.key).Nodup →
      l1 = l2 := by
  intro l1
  induction l1 with
  | nil =>
      intro l2 hp _ _ _
      exact (hp.symm.eq_nil).symm
  | cons a t1 ih =>
      intro l2 hp hs1 hs2 hnd
      have ha2 : a ∈ l2 := hp.mem_iff.mp (List.mem_cons_self a t1)
      cases l2 with
      | nil => exact absurd ha2 (List.not_mem_nil a)
      | cons b t2 =>
          have hb1 : b ∈ a :: t1 := hp.symm.mem_iff.mp (List.mem_cons_self b t2)
          have hab : a.key ≤ b.key := by
            rcases List.mem_cons.mp hb1 with h | h
            · rw [h]
            · exact (List.pairwise_cons.mp hs1).1 b h
          have hba : b.key ≤ a.key := by
            rcases List.mem_cons.mp ha2 with h | h
            · rw [h]
            · exact (List.pairwise_cons.mp hs2).1 a h
          have hkey : a.key = b.key := le_antisymm hab hba
          have hb : a = b := by
            rcases List.mem_cons.mp hb1 with h | h
            · exact h.symm
            · exfalso
              have hmem : a.key ∈ t1.map KeyValue.key :=
                List.mem_map.mpr ⟨b, h, hkey.symm⟩
              exact (List.nodup_cons.mp hnd).1 hmem
          subst hb
          have hpt : t1.Perm t2 := hp.cons_inv
          rw [ih t2 hpt (List.pairwise_cons.mp hs1).2 (List.pairwise_cons.mp hs2).2
            (List.nodup_cons.mp hnd).2]

/-- C3: once all reducer outputs exist, the merged result is sorted by
key ascending (byte-wise string order), contains every (key, value)
pair of every reducer's output, has exactly one entry per key present
in any reducer's output (given that reducer outputs have unique,
pairwise-disjoint key sets, as `DoReduce` and the partitioning
guarantee), and is a deterministic function of the combined pairs:
merging any rearrangement of the same pairs — in particular calling
`merge()` twice without intervening writes — produces identical
output. -/
theorem C3_merge_sorted_unique (outputs : List (List KeyValue))
    (hnodup : ∀ o ∈ outputs, (o.map KeyValue.key).Nodup)
    (hdisj : outputs.Pairwise
      (fun o1 o2 => ∀ k, k ∈ o1.map KeyValue.key → k ∉ o2.map KeyValue.key)) :
    (mergeOutputs outputs).Pairwise (fun a b => a.key ≤ b.key) ∧
    (mergeOutputs outputs).Perm outputs.flatten ∧
    ((mergeOutputs outputs).map KeyValue.key).Nodup ∧
    (∀ k, k ∈ (mergeOutputs outputs).map KeyValue.key ↔
      ∃ o ∈ outputs, k ∈ o.map KeyValue.key) ∧
    (∀ outputs2, outputs2.flatten.Perm outputs.flatten →
      mergeOutputs outputs2 = mergeOutputs outputs) := by
  have hperm := mergeOutputs_perm outputs
  have hflat := nodup_flatten_keys outputs hnodup hdisj
  have hnd : ((mergeOutputs outputs).map KeyValue.key).Nodup :=
    ((hperm.map KeyValue.key).nodup_iff).mpr hflat
  refine ⟨mergeOutputs_sorted outputs, hperm, hnd, ?_, ?_⟩
  · intro k
    rw [List.mem_map]
    constructor
    · rintro ⟨kv, hkv, hkey⟩
      obtain ⟨o, ho, hkvo⟩ := List.mem_flatten.mp (hperm.mem_iff.mp hkv)
      exact ⟨o, ho, List.mem_map.mpr ⟨kv, hkvo, hkey⟩⟩
    · rintro ⟨o, ho, hk⟩
      obtain ⟨kv, hkvo, hkey⟩ := List.mem_map.mp hk
      exact ⟨kv, hperm.mem_iff.mpr (List.mem_flatten.mpr ⟨o, ho, hkvo⟩), hkey⟩
  · intro outputs2 houts
    have hp12 : (mergeOutputs outputs2).Perm (mergeOutputs outputs) :=
      ((mergeOutputs_perm outputs2).trans houts).trans hperm.symm
    exact sorted_perm_nodup_keys_eq (mergeOutputs outputs2) (mergeOutputs outputs)
      hp12 (mergeOutputs_sorted outputs2) (mergeOutputs_sorted outputs)
      (((hp12.map KeyValue.key).nodup_iff).mpr hnd)

/-- Witness for C3 at a concrete input: two reducer outputs with
disjoint keys. -/
theorem C3_witness :
    (mergeOutputs [[⟨"b", "2"⟩], [⟨"a", "1"⟩]]).Pairwise
      (fun a b => a.key ≤ b.key) ∧
    ((mergeOutputs [[⟨"b", "2"⟩], [⟨"a", "1"⟩]]).map KeyValue.key).Nodup := by
  have h := C3_merge_sorted_unique [[⟨"b", "2"⟩], [⟨"a", "1"⟩]]
    (by intro o ho; fin_cases ho <;> simp)
    (by
      constructor
      · intro o2 ho2 k hk1 hk2
        simp at ho2
        subst ho2
        simp at hk1 hk2
        rw [hk1] at hk2
        exact absurd hk2 (by decide)
      · simp)
  exact ⟨h.1, h.2.2.1⟩

/-- Task lifecycle states (spec §3): Idle → InProgress → Completed. -/
inductive TStatus where
  | idle
  | inProgress
  | completed
deriving DecidableEq, Repr

/-- Modelled from the spec: the scheduler's per-job task state — one
status per map task and one per reduce task.  The master's code is
absent from the sources at hand. -/
structure SchedState where
  maps : List TStatus
  reduces : List TStatus
deriving DecidableEq, Repr

/-- Modelled from the spec (§4.1, §5): the scheduler's task state
transitions.  An idle task is dispatched to become in-progress; an
in-progress task completes, or — on worker failure — reverts to idle; a
task never leaves Completed; and a reduce task may be dispatched only
when every map task is Completed (the map→reduce barrier). -/
inductive SchedStep : SchedState → SchedState → Prop where
  | dispatchMap (s : SchedState) (i : Nat)
      (h : s.maps.get? i = some TStatus.idle) :
      SchedStep s ⟨s.maps.set i TStatus.inProgress, s.reduces⟩
  | completeMap (s : SchedState) (i : Nat)
      (h : s.maps.get? i = some TStatus.inProgress) :
      SchedStep s ⟨s.maps.set i TStatus.completed, s.reduces⟩
  | failMap (s : SchedState) (i : Nat)
      (h : s.maps.get? i = some TStatus.inProgress) :
      SchedStep s ⟨s.maps.set i TStatus.idle, s.reduces⟩
  | dispatchReduce (s : SchedState) (j : Nat)
      (hbarrier : ∀ t ∈ s.maps, t = TStatus.completed)
      (h : s.reduces.get? j = some TStatus.idle) :
      SchedStep s ⟨s.maps, s.reduces.set j TStatus.inProgress⟩
  | completeReduce (s : SchedState) (j : Nat)
      (h : s.reduces.get? j = some TStatus.inProgress) :
      SchedStep s ⟨s.maps, s.reduces.set j TStatus.completed⟩
  | failReduce (s : SchedState) (j : Nat)
      (h : s.reduces.get? j = some TStatus.inProgress) :
      SchedStep s ⟨s.maps, s.reduces.set j TStatus.idle⟩

/-- The initial state of a job run: all tasks idle. -/
def initState (numMappers numReducers : Nat) : SchedState :=
  ⟨List.replicate numMappers TStatus.idle, List.replicate numReducers TStatus.idle⟩

/-- States the scheduler can reach during one job execution. -/
inductive Reachable (numMappers numReducers : Nat) : SchedState → Prop where
  | init : Reachable numMappers numReducers (initState numMappers numReducers)
  | step (s s' : SchedState) (hs : Reachable numMappers numReducers s)
      (hstep : SchedStep s s') : Reachable numMappers numReducers s'

/-- C2: in every reachable scheduler state in which any reduce task has
ever been dispatched (is no longer Idle), every map task of the job is
Completed — no reduce task is dispatched while any map task is still
Idle or InProgress, and map tasks never regress afterwards. -/
theorem C2_map_reduce_barrier (numMappers numReducers : Nat) (s : SchedState)
    (hreach : Reachable numMappers numReducers s) :
    (∃ r ∈ s.reduces, r ≠ TStatus.idle) →
      ∀ t ∈ s.maps, t = TStatus.completed := by
  induction hreach with
  | init =>
      rintro ⟨r, hr, hne⟩
      exact absurd (List.eq_of_mem_replicate hr) hne
  | step s s' hs hstep ih =>
      intro hdisp
      cases hstep with
      | dispatchMap i h =>
          have hall := ih hdisp
          have hmem : TStatus.idle ∈ s.maps := List.get?_mem h
          exact absurd (hall _ hmem) (by decide)
      | completeMap i h =>
          have hall := ih hdisp
          intro t ht
          rcases List.mem_or_eq_of_mem_set ht with hin | heq
          · exact hall t hin
          · exact heq
      | failMap i h =>
          have hall := ih hdisp
          have hmem : TStatus.inProgress ∈ s.maps := List.get?_mem h
          exact absurd (hall _ hmem) (by decide)
      | dispatchReduce j hbarrier h =>
          exact hbarrier
      | completeReduce j h =>
          exact ih ⟨TStatus.inProgress, List.get?_mem h, by decide⟩
      | failReduce j h =>
          exact ih ⟨TStatus.inProgress, List.get?_mem h, by decide⟩

/-- Witness for C2: a concrete run — dispatch and complete the single
map task, then dispatch the reduce task — reaches a state where the
barrier theorem applies. -/
theorem C2_witness :
    (SchedState.mk [TStatus.completed] [TStatus.inProgress]).maps.all
      (fun t => t == TStatus.completed) = true := by
  have h1 : Reachable 1 1 ⟨[TStatus.inProgress], [TStatus.idle]⟩ :=
    Reachable.step _ _ Reachable.init (SchedStep.dispatchMap (initState 1 1) 0 rfl)
  have h2 : Reachable 1 1 ⟨[TStatus.completed], [TStatus.idle]⟩ :=
    Reachable.step _ _ h1
      (SchedStep.completeMap ⟨[TStatus.inProgress], [TStatus.idle]⟩ 0 rfl)
  have h3 : Reachable 1 1 ⟨[TStatus.completed], [TStatus.inProgress]⟩ :=
    Reachable.step _ _ h2
      (SchedStep.dispatchReduce ⟨[TStatus.completed], [TStatus.idle]⟩ 0
        (by decide) rfl)
  have hall := C2_map_reduce_barrier 1 1 _ h3
    ⟨TStatus.inProgress, by simp, by decide⟩
  rw [List.all_eq_true]
  intro t ht
  simp [hall t ht]
